import Mathlib

/-!
Verification of the multipart upload client (`src/scripts/multipart.py`).

The file bytes are modelled as `List Nat`; a chunk file is a pair
`(chunkNum, bytes)` mirroring the names `chunk_0001`, `chunk_0002`, ...
written by `split_file`.  HTTP interaction is modelled by an environment
of response functions, and the driver `upload_file` is an interpreter that
emits a trace of observable events (URL refill requests, chunk uploads,
batch reports) in program order.
-/

namespace Multipart

/-- One chunk file created by `split_file`: the 1-based chunk number
(embedded in the file name `chunk_%04d`) and the bytes written to it. -/
abbrev ChunkFile := Nat × List Nat

/-- The `while True` loop of `split_file` (`multipart.py` lines 51-64):
`f.read(chunk_size)` returns the next `chunk_size` bytes (fewer at the end),
and the loop breaks on an empty read.  When `chunk_size ≥ 1` every
iteration consumes at least one byte, so the number of remaining bytes
bounds the number of iterations; it is passed as structural fuel
(the zero-fuel arm with bytes remaining is never reached from
`split_file`).  A read with `chunk_size = 0` returns an empty bytes
object, so the loop then terminates at once with no chunks — `split_file`
guards that case separately. -/
def splitFileAux (chunkSize : Nat) : Nat → List Nat → Nat → List ChunkFile
  | _, [], _ => []
  | 0, _ :: _, _ => []
  | fuel + 1, a :: d, chunkNum =>
      (chunkNum, (a :: d).take chunkSize) ::
        splitFileAux chunkSize fuel ((a :: d).drop chunkSize) (chunkNum + 1)

/-- Model of `MultipartUploadClient.split_file` (lines 38-67): splits the file's
bytes into chunk files numbered from 1 and returns `(chunk_files, file_size)`. -/
def split_file (chunkSize : Nat) (data : List Nat) : List ChunkFile × Nat :=
  (if chunkSize = 0 then []
   else splitFileAux chunkSize data.length data 1, data.length)

/-! ### Chunk upload to S3 and ETag extraction -/

/-- Stripping a character from both ends of a character list: Python's `str.strip('"')` removes every
leading and every trailing occurrence of the character. -/
def stripChars (c : Char) (l : List Char) : List Char :=
  ((l.dropWhile (· == c)).reverse.dropWhile (· == c)).reverse

/-- The quote-stripping `strip` call of line 110. -/
def stripQuotes (s : String) : String := ⟨stripChars '\"' s.data⟩

/-- The response to the presigned-URL PUT: HTTP status code and the value of
the `ETag` header when present. -/
structure PutResponse where
  status : Nat
  etagHeader : Option String

/-- Model of `upload_chunk_to_s3` (lines 93-113): a single PUT, then
`response.raise_for_status()` (raises exactly when `status ≥ 400`), then
`etag = response.headers.get('ETag', '').strip('"')` and the etag is
returned — also when the header was absent, in which case the etag is `""`. -/
def upload_chunk_to_s3 (resp : PutResponse) : Except Nat String :=
  if 400 ≤ resp.status then .error resp.status
  else .ok (stripQuotes (resp.etagHeader.getD ""))

/-! ### Scratch chunk directory lifecycle -/

/-- State of the scratch area: indices of the chunk files present on disk,
and whether the chunk directory itself exists. -/
structure FsState where
  files : List Nat
  dirExists : Bool
deriving DecidableEq

/-- Scratch-area state right after `split_file` ran on a readable file:
`chunk_dir.mkdir(exist_ok=True)` runs unconditionally (line 49) — also for
a zero-byte file — and one chunk file per produced chunk is written. -/
def splitFileState (chunkSize : Nat) (data : List Nat) : FsState :=
  { files := (split_file chunkSize data).1.map Prod.fst, dirExists := true }

/-- Model of `cleanup_chunks` (lines 162-179): removes each listed chunk file, then
removes the chunk directory only when `chunk_files` is nonempty (the
directory path is recovered from `chunk_files[0]`); `rmdir` only succeeds
on an empty directory, and its `OSError` is swallowed. -/
def cleanup_chunks (chunkFiles : List Nat) (s : FsState) : FsState :=
  let s1 : FsState :=
    { s with files := s.files.filter (fun i => !(chunkFiles.contains i)) }
  if chunkFiles.isEmpty then s1
  else if s1.files.isEmpty then { s1 with dirExists := false }
  else s1

/-- Scratch-area state after any call to `upload_file` whose `split_file`
step completed: the `finally` block (lines 296-299) runs `cleanup_chunks`
on every such exit path, success or failure. -/
def upload_file_fsState (chunkSize : Nat) (data : List Nat) : FsState :=
  cleanup_chunks ((split_file chunkSize data).1.map Prod.fst)
    (splitFileState chunkSize data)

/-! ### The upload driver `upload_file` as a trace-producing interpreter -/

/-- A completed-chunk entry as appended at lines 260-265 of `upload_file`. -/
structure ChunkProof where
  chunk_index : Nat
  proof : String
  proof_type : String
  chunk_size : Nat
deriving DecidableEq

/-- Observable protocol events of one `upload_file` run, in program order:
a presigned-URL refill request (`get_additional_urls`, with its page
argument), the upload of one chunk (`upload_chunk_to_s3`), and one batch
report (`report_completed_chunks`, identified by the batch's `batch_start`
and carrying the reported proof list). -/
inductive Event where
  | refill (page : Nat)
  | upload (chunkIndex : Nat)
  | report (batchStart : Nat) (proofs : List ChunkProof)
deriving DecidableEq

/-- Is this event a `get_additional_urls` call? -/
def Event.isRefill : Event → Bool
  | .refill _ => true
  | _ => false

/-- The failure modes `upload_file` can raise. -/
inductive UpErr where
  | noUrl (chunkIndex : Nat)
  | chunkFailed (chunkIndex : Nat) (msg : String)
  | notCompleted (status : String)
deriving DecidableEq

/-- The remote service's behaviour as observed by one `upload_file` run. -/
structure Env where
  /-- `upload_urls` of the create-session response (used at line 213). -/
  initialUrls : List (Nat × String)
  /-- `upload_urls` returned by `get_additional_urls` for a given page. -/
  refillUrls : Nat → List (Nat × String)
  /-- Outcome of the PUT for a chunk index: the etag, or a failure. -/
  uploadEtag : Nat → Except String String
  /-- The `url` field of the report response for the batch at a given
  `batch_start` (`none` when absent or JSON `null`). -/
  reportResp : Nat → Option String
  /-- Completion order of one batch's futures (`as_completed`, line 255):
  an arbitrary reordering of the submitted `(chunk_index, size)` pairs. -/
  order : Nat → List (Nat × Nat) → List (Nat × Nat)
  /-- `status` of the final `get_upload_status` response. -/
  finalStatus : String
  /-- `url` of the asset endpoint response (line 308; `''` when absent). -/
  assetUrl : String

/-- Python truthiness of `result.get('url')` (lines 147 and 276): the key
must be present and its value a non-empty string. -/
def truthy : Option String → Bool
  | none => false
  | some s => !(s == "")

/-- Merging an `upload_urls` list into the `current_urls` dict (lines 213
and 233-234): entries are written in list order, later ones overwriting. -/
def mergeUrls (urls : Nat → Option String) (l : List (Nat × String)) :
    Nat → Option String :=
  l.foldl (fun acc p => Function.update acc p.1 (some p.2)) urls

/-- The page computation of line 231; `get_additional_urls`
is always called with its default `limit=10`, matching the divisor. -/
def pageOf (chunkIndex : Nat) : Nat := (chunkIndex - 1) / 10 + 1

/-- The chunk indices of the batch at `batch_start` (lines 219-221):
`batch_end = min(batch_start + batch_size, total_chunks)` and
`batch_indices = list(range(batch_start + 1, batch_end + 1))`. -/
def batchIdxsOf (totalChunks batchSize batchStart : Nat) : List Nat :=
  List.range' (batchStart + 1)
    (min (batchStart + batchSize) totalChunks - batchStart)

/-- The `missing_urls` list of one batch (line 226). -/
def missingOf (urls : Nat → Option String) (idxs : List Nat) : List Nat :=
  idxs.filter fun i => (urls i).isNone

/-- The `get_additional_urls` calls made for one batch, one per missing
index (lines 230-232), as refill events in call order. -/
def refillEvsOf (urls : Nat → Option String) (idxs : List Nat) : List Event :=
  (missingOf urls idxs).map fun i => Event.refill (pageOf i)

/-- The URL-refill loop for one batch (lines 226-234): one
`get_additional_urls` call per missing index, each returned list merged
into `current_urls` before the next call. -/
def refillPhase (env : Env) (urls : Nat → Option String)
    (missing : List Nat) : List Event × (Nat → Option String) :=
  (missing.map fun i => Event.refill (pageOf i),
   missing.foldl (fun u i => mergeUrls u (env.refillUrls (pageOf i))) urls)

/-- The `(chunk_index, chunk file size)` pairs submitted to the pool for
one batch (lines 247-252): the chunk file of index `i` holds the bytes of
the i-th chunk and its size is read back by `stat` at line 259. -/
def entriesFor (chunks : List (List Nat)) (batchSize batchStart : Nat) :
    List (Nat × Nat) :=
  (batchIdxsOf chunks.length batchSize batchStart).map
    fun i => (i, (chunks.getD (i - 1) []).length)

/-- One batch's futures in completion order (`as_completed`). -/
def orderedOf (env : Env) (chunks : List (List Nat))
    (batchSize batchStart : Nat) : List (Nat × Nat) :=
  env.order batchStart (entriesFor chunks batchSize batchStart)

/-- Upload events of one batch, in completion order. -/
def upEvsOf (env : Env) (chunks : List (List Nat))
    (batchSize batchStart : Nat) : List Event :=
  (orderedOf env chunks batchSize batchStart).map fun p => Event.upload p.1

/-- The `as_completed` result-collection loop (lines 254-269): results are
consumed in completion order, each success appending a completed-chunk
entry; the first failure re-raises, discarding the partial list. -/
def collectProofs (uploadEtag : Nat → Except String String) :
    List (Nat × Nat) → Except (Nat × String) (List ChunkProof)
  | [] => .ok []
  | (i, sz) :: rest =>
    match uploadEtag i with
    | .error msg => .error (i, msg)
    | .ok etag =>
      match collectProofs uploadEtag rest with
      | .error e => .error e
      | .ok ps => .ok (⟨i, etag, "etag", sz⟩ :: ps)

/-- One iteration of the batch loop (lines 218-280) for the batch at
`batchStart`: refill missing URLs, verify coverage (lines 237-239), upload
the batch, report it, and hand back the updated URL cache together with
the `url` field of the report response. -/
def processBatch (env : Env) (chunks : List (List Nat))
    (batchSize batchStart : Nat) (urls : Nat → Option String) :
    List Event × Except UpErr ((Nat → Option String) × Option String) :=
  match (batchIdxsOf chunks.length batchSize batchStart).find?
      (fun i => (((refillPhase env urls (missingOf urls
        (batchIdxsOf chunks.length batchSize batchStart))).2) i).isNone) with
  | some i =>
    (refillEvsOf urls (batchIdxsOf chunks.length batchSize batchStart),
     .error (.noUrl i))
  | none =>
    match collectProofs env.uploadEtag
        (orderedOf env chunks batchSize batchStart) with
    | .error e =>
      (refillEvsOf urls (batchIdxsOf chunks.length batchSize batchStart) ++
        upEvsOf env chunks batchSize batchStart,
       .error (.chunkFailed e.1 e.2))
    | .ok proofs =>
      (refillEvsOf urls (batchIdxsOf chunks.length batchSize batchStart) ++
        upEvsOf env chunks batchSize batchStart ++
        [Event.report batchStart proofs],
       .ok ((refillPhase env urls (missingOf urls
          (batchIdxsOf chunks.length batchSize batchStart))).2,
        env.reportResp batchStart))

/-- The loop header `for batch_start in range(0, total_chunks, batch_size)` (line 218):
the list of `batch_start` values. -/
def batchStarts (totalChunks batchSize : Nat) : List Nat :=
  List.range' 0 ((totalChunks + batchSize - 1) / batchSize) batchSize

/-- The batch loop: processes the given `batch_start` values in order,
threading `current_urls`; raising aborts the loop, and a truthy `url` in a
report response returns it early (lines 276-278).  `.ok none` means the
loop ran to completion without an early return. -/
def runBatches (env : Env) (chunks : List (List Nat)) (batchSize : Nat) :
    List Nat → (Nat → Option String) →
      List Event × Except UpErr (Option String)
  | [], _ => ([], .ok none)
  | batchStart :: rest, urls =>
    match processBatch env chunks batchSize batchStart urls with
    | (evs, .error e) => (evs, .error e)
    | (evs, .ok (urls1, respUrl)) =>
      if truthy respUrl then (evs, .ok respUrl)
      else
        let r := runBatches env chunks batchSize rest urls1
        (evs ++ r.1, r.2)

/-- Model of `upload_file` (lines 181-299): the session is created (modelled by the
environment, whose `chunk_size` parametrises the run), the file is split
with the server-assigned chunk size, `current_urls` is seeded from the
session's initial URLs, the batch loop runs, and when no report returned a
URL a single final status poll decides the outcome (lines 282-294). -/
def upload_file (env : Env) (chunkSize batchSize : Nat) (data : List Nat) :
    List Event × Except UpErr String :=
  let chunks := (split_file chunkSize data).1.map Prod.snd
  let r := runBatches env chunks batchSize
    (batchStarts chunks.length batchSize) (mergeUrls (fun _ => none) env.initialUrls)
  match r.2 with
  | .error e => (r.1, .error e)
  | .ok (some u) => (r.1, .ok u)
  | .ok none =>
    if env.finalStatus == "completed" then (r.1, .ok env.assetUrl)
    else (r.1, .error (.notCompleted env.finalStatus))

/-- The `report` batch starts occurring in a trace, in trace order. -/
def reportStarts (evs : List Event) : List Nat :=
  evs.filterMap fun e =>
    match e with
    | .report b _ => some b
    | _ => none

/-- Test service: 12 chunks' worth of URLs, pages of 10; every upload
succeeds; no report ever returns a URL; the final status is `completed`. -/
def envPages : Env where
  initialUrls := (List.range' 1 10).map fun i => (i, "u")
  refillUrls := fun p => if p = 2 then [(11, "u"), (12, "u")] else []
  uploadEtag := fun _ => .ok "e"
  reportResp := fun _ => none
  order := fun _ l => l
  finalStatus := "completed"
  assetUrl := "a"

/-- Test service whose report responses carry an empty-string `url`. -/
def envEmptyUrl : Env where
  initialUrls := [(1, "u"), (2, "u")]
  refillUrls := fun _ => []
  uploadEtag := fun _ => .ok "e"
  reportResp := fun _ => some ""
  order := fun _ l => l
  finalStatus := "completed"
  assetUrl := "a"

/-- Test service whose first batch report returns a final URL; futures of
each batch complete in reverse submission order. -/
def envEarly : Env where
  initialUrls := [(1, "u"), (2, "u"), (3, "u")]
  refillUrls := fun _ => []
  uploadEtag := fun _ => .ok "e"
  reportResp := fun b => if b = 0 then some "final" else none
  order := fun _ l => l.reverse
  finalStatus := "pending"
  assetUrl := "a"

/-- Test service where the upload of chunk 3 fails. -/
def envFail : Env where
  initialUrls := [(1, "u"), (2, "u"), (3, "u")]
  refillUrls := fun _ => []
  uploadEtag := fun i => if i = 3 then .error "boom" else .ok "e"
  reportResp := fun _ => none
  order := fun _ l => l
  finalStatus := "pending"
  assetUrl := "a"

/-- Test service where everything succeeds and batches complete in reverse
submission order; the final status poll reports completion. -/
def envOK : Env where
  initialUrls := [(1, "u"), (2, "u"), (3, "u")]
  refillUrls := fun _ => []
  uploadEtag := fun _ => .ok "e"
  reportResp := fun _ => none
  order := fun _ l => l.reverse
  finalStatus := "completed"
  assetUrl := "a"

/-! ### The CLI driver `main` -/

/-- Output channel of a Python `print` call. -/
inductive OutChannel where
  | stdout
  | stderr
deriving DecidableEq

/-- Outcome of `client.upload_file(...)` as observed by `main`. -/
inductive RunOutcome where
  | success (assetUrl : String)
  | interrupted
  | failed (msg : String)

/-- Model of `main` (lines 311-347): on success the asset URL is printed and the
process exits 0 (falling off the end of `main`); `KeyboardInterrupt` and
any other exception print a diagnostic and call `sys.exit(1)`.  Every
diagnostic is written with plain `print`, i.e. to standard output; nothing
is ever written to standard error.  The timing line is elided. -/
def mainDriver (r : RunOutcome) : Nat × List (OutChannel × String) :=
  match r with
  | .success url =>
    (0, [(.stdout, "Upload completed"), (.stdout, "Asset URL: " ++ url)])
  | .interrupted => (1, [(.stdout, "Upload cancelled by user")])
  | .failed msg => (1, [(.stdout, "Error: " ++ msg)])

/-! ### Theorems -/

theorem splitFileAux_nil (chunkSize fuel chunkNum : Nat) :
    splitFileAux chunkSize fuel [] chunkNum = [] := by
  cases fuel <;> rfl

theorem splitFileAux_cons (chunkSize fuel : Nat)
    (data : List Nat) (hd : data ≠ []) (chunkNum : Nat) :
    splitFileAux chunkSize (fuel + 1) data chunkNum =
      (chunkNum, data.take chunkSize) ::
        splitFileAux chunkSize fuel (data.drop chunkSize) (chunkNum + 1) := by
  cases data with
  | nil => exact absurd rfl hd
  | cons a d => rfl

theorem splitFileAux_join (chunkSize : Nat) (hc : 0 < chunkSize) :
    ∀ (n : Nat) (data : List Nat), data.length ≤ n → ∀ chunkNum,
      ((splitFileAux chunkSize n data chunkNum).map Prod.snd).flatten = data := by
  intro n
  induction n with
  | zero =>
    intro data h chunkNum
    have hd : data = [] := List.eq_nil_of_length_eq_zero (Nat.le_zero.mp h)
    subst hd
    simp [splitFileAux_nil]
  | succ n ih =>
    intro data h chunkNum
    by_cases hd : data = []
    · subst hd; simp [splitFileAux_nil]
    · rw [splitFileAux_cons chunkSize n data hd chunkNum]
      have hlen : (data.drop chunkSize).length ≤ n := by
        have h1 : 0 < data.length := List.length_pos.mpr hd
        simp only [List.length_drop]
        omega
      simp only [List.map_cons, List.flatten_cons, ih (data.drop chunkSize) hlen]
      exact List.take_append_drop chunkSize data

theorem splitFileAux_length (chunkSize : Nat) (hc : 0 < chunkSize) :
    ∀ (n : Nat) (data : List Nat), data.length ≤ n → ∀ chunkNum,
      (splitFileAux chunkSize n data chunkNum).length =
        (data.length + chunkSize - 1) / chunkSize := by
  intro n
  induction n with
  | zero =>
    intro data h chunkNum
    have hd : data = [] := List.eq_nil_of_length_eq_zero (Nat.le_zero.mp h)
    subst hd
    rw [splitFileAux_nil]
    simp only [List.length_nil, Nat.zero_add]
    exact (Nat.div_eq_of_lt (by omega)).symm
  | succ n ih =>
    intro data h chunkNum
    by_cases hd : data = []
    · subst hd
      rw [splitFileAux_nil]
      simp only [List.length_nil, Nat.zero_add]
      exact (Nat.div_eq_of_lt (by omega)).symm
    · rw [splitFileAux_cons chunkSize n data hd chunkNum]
      have h0 : 0 < data.length := List.length_pos.mpr hd
      have hlen : (data.drop chunkSize).length ≤ n := by
        simp only [List.length_drop]; omega
      simp only [List.length_cons, ih (data.drop chunkSize) hlen,
        List.length_drop]
      by_cases hle : data.length ≤ chunkSize
      · have h1 : data.length - chunkSize = 0 := by omega
        rw [h1]
        have h2 : (0 + chunkSize - 1) / chunkSize = 0 :=
          Nat.div_eq_of_lt (by omega)
        rw [h2]
        have h3 : (data.length + chunkSize - 1) / chunkSize = 1 :=
          Nat.div_eq_of_lt_le (by omega) (by omega)
        omega
      · have h4 : data.length + chunkSize - 1 =
            (data.length - chunkSize + chunkSize - 1) + chunkSize := by omega
        rw [h4, Nat.add_div_right _ hc]

theorem splitFileAux_dropLast (chunkSize : Nat) (hc : 0 < chunkSize) :
    ∀ (n : Nat) (data : List Nat), data.length ≤ n → ∀ chunkNum,
      ∀ p ∈ (splitFileAux chunkSize n data chunkNum).dropLast,
        p.2.length = chunkSize := by
  intro n
  induction n with
  | zero =>
    intro data h chunkNum
    have hd : data = [] := List.eq_nil_of_length_eq_zero (Nat.le_zero.mp h)
    subst hd
    simp [splitFileAux_nil]
  | succ n ih =>
    intro data h chunkNum p hp
    by_cases hd : data = []
    · subst hd; simp [splitFileAux_nil] at hp
    · rw [splitFileAux_cons chunkSize n data hd chunkNum] at hp
      have h0 : 0 < data.length := List.length_pos.mpr hd
      by_cases hle : data.length ≤ chunkSize
      · have hrest : splitFileAux chunkSize n (data.drop chunkSize)
            (chunkNum + 1) = [] := by
          have : data.drop chunkSize = [] := by
            apply List.eq_nil_of_length_eq_zero
            simp only [List.length_drop]; omega
          rw [this, splitFileAux_nil]
        rw [hrest] at hp
        simp at hp
      · rcases hrec : splitFileAux chunkSize n (data.drop chunkSize)
            (chunkNum + 1) with _ | ⟨q, rest⟩
        · rw [hrec] at hp; simp at hp
        · rw [hrec] at hp
          rw [List.dropLast_cons₂] at hp
          rcases List.mem_cons.mp hp with h1 | h2
          · subst h1
            simp only [List.length_take]
            omega
          · have hlen : (data.drop chunkSize).length ≤ n := by
              simp only [List.length_drop]; omega
            have := ih (data.drop chunkSize) hlen (chunkNum + 1) p
            rw [hrec] at this
            exact this h2

theorem splitFileAux_map_fst (chunkSize : Nat) (hc : 0 < chunkSize) :
    ∀ (n : Nat) (data : List Nat), data.length ≤ n → ∀ chunkNum,
      (splitFileAux chunkSize n data chunkNum).map Prod.fst =
        List.range' chunkNum (splitFileAux chunkSize n data chunkNum).length := by
  intro n
  induction n with
  | zero =>
    intro data h chunkNum
    have hd : data = [] := List.eq_nil_of_length_eq_zero (Nat.le_zero.mp h)
    subst hd
    simp [splitFileAux_nil]
  | succ n ih =>
    intro data h chunkNum
    by_cases hd : data = []
    · subst hd; simp [splitFileAux_nil]
    · rw [splitFileAux_cons chunkSize n data hd chunkNum]
      have h0 : 0 < data.length := List.length_pos.mpr hd
      have hlen : (data.drop chunkSize).length ≤ n := by
        simp only [List.length_drop]; omega
      simp only [List.map_cons, List.length_cons, List.range'_succ]
      rw [ih (data.drop chunkSize) hlen (chunkNum + 1)]

/-- Claim C1. For every file content and every positive chunk size `C`,
`split_file` produces exactly `⌈N/C⌉` chunk files, numbered `1, 2, ...` in
strictly increasing order; concatenating the chunk contents in index order
reproduces the original bytes, and every chunk except possibly the last has
size exactly `C`. -/
theorem split_file_correct (data : List Nat) (chunkSize : Nat)
    (hc : 0 < chunkSize) :
    (split_file chunkSize data).1.length =
        (data.length + chunkSize - 1) / chunkSize ∧
    ((split_file chunkSize data).1.map Prod.snd).flatten = data ∧
    (∀ p ∈ (split_file chunkSize data).1.dropLast, p.2.length = chunkSize) ∧
    (split_file chunkSize data).1.map Prod.fst =
        List.range' 1 (split_file chunkSize data).1.length ∧
    ((split_file chunkSize data).1.map Prod.fst).Pairwise (· < ·) := by
  have h1 : (split_file chunkSize data).1 =
      splitFileAux chunkSize data.length data 1 := by
    simp only [split_file]
    rw [if_neg (Nat.pos_iff_ne_zero.mp hc)]
  rw [h1]
  refine ⟨?_, ?_, ?_, ?_, ?_⟩
  · exact splitFileAux_length chunkSize hc data.length data le_rfl 1
  · exact splitFileAux_join chunkSize hc data.length data le_rfl 1
  · exact splitFileAux_dropLast chunkSize hc data.length data le_rfl 1
  · exact splitFileAux_map_fst chunkSize hc data.length data le_rfl 1
  · rw [splitFileAux_map_fst chunkSize hc data.length data le_rfl 1]
    exact List.pairwise_lt_range' _ _

/-- Witness for C1: a 5-byte file with chunk size 2 gives chunks of sizes
2, 2, 1 with indices 1, 2, 3. -/
theorem split_file_correct_witness :
    0 < 2 ∧
    ((split_file 2 [9, 8, 7, 6, 5]).1.length = (5 + 2 - 1) / 2 ∧
    ((split_file 2 [9, 8, 7, 6, 5]).1.map Prod.snd).flatten = [9, 8, 7, 6, 5] ∧
    (∀ p ∈ (split_file 2 [9, 8, 7, 6, 5]).1.dropLast, p.2.length = 2) ∧
    (split_file 2 [9, 8, 7, 6, 5]).1.map Prod.fst =
        List.range' 1 (split_file 2 [9, 8, 7, 6, 5]).1.length ∧
    ((split_file 2 [9, 8, 7, 6, 5]).1.map Prod.fst).Pairwise (· < ·)) :=
  ⟨by decide, split_file_correct [9, 8, 7, 6, 5] 2 (by decide)⟩

theorem stripChars_wrap (c : Char) (l : List Char)
    (h1 : ∀ a, l.head? = some a → (a == c) = false)
    (h2 : ∀ a, l.getLast? = some a → (a == c) = false) :
    stripChars c (c :: (l ++ [c])) = l := by
  unfold stripChars
  rw [List.dropWhile_cons]
  simp only [beq_self_eq_true, if_true]
  cases l with
  | nil => simp [List.dropWhile]
  | cons a t =>
    have ha : (a == c) = false := h1 a rfl
    have hcons : (a :: t) ++ [c] = a :: (t ++ [c]) := rfl
    rw [hcons, List.dropWhile_cons, ha]
    simp only [Bool.false_eq_true, if_false]
    have hrev : (a :: (t ++ [c])).reverse = c :: (a :: t).reverse := by
      rw [show a :: (t ++ [c]) = (a :: t) ++ [c] from rfl, List.reverse_append]
      rfl
    rw [hrev, List.dropWhile_cons]
    simp only [beq_self_eq_true, if_true]
    rcases hr : (a :: t).reverse with _ | ⟨b, r⟩
    · exact absurd hr (by simp)
    · have hb : (b == c) = false := by
        apply h2
        rw [← List.head?_reverse, hr]
        rfl
      rw [List.dropWhile_cons, hb]
      simp only [Bool.false_eq_true, if_false]
      rw [← hr, List.reverse_reverse]

/-- Counterexample to C4: when the `ETag` header is absent on a 2xx
response, `upload_chunk_to_s3` does not fail at all — there is no
`MissingProofError` anywhere in the code — it returns the empty string as
the proof (`headers.get('ETag', '')` defaults to `''`). -/
theorem upload_chunk_missing_etag_is_ok :
    upload_chunk_to_s3 ⟨200, none⟩ = .ok "" ∧
    ∀ e, upload_chunk_to_s3 ⟨200, none⟩ ≠ .error e := by
  constructor
  · rfl
  · intro e h
    rw [show upload_chunk_to_s3 ⟨200, none⟩ = .ok "" from rfl] at h
    exact Except.noConfusion h

/-- Claim C4 (amended). For every PUT whose response status is 2xx, the
returned proof is the `ETag` header value with all surrounding quote
characters stripped; when the header is absent the proof is the empty
string (the upload does not fail). -/
theorem upload_chunk_etag (resp : PutResponse)
    (h2xx : 200 ≤ resp.status ∧ resp.status < 300) :
    upload_chunk_to_s3 resp = .ok (stripQuotes (resp.etagHeader.getD "")) ∧
    (resp.etagHeader = none → upload_chunk_to_s3 resp = .ok "") ∧
    (∀ v : String, v.data.head? ≠ some '\"' → v.data.getLast? ≠ some '\"' →
      resp.etagHeader = some ⟨'\"' :: (v.data ++ ['\"'])⟩ →
      upload_chunk_to_s3 resp = .ok v) := by
  have hok : upload_chunk_to_s3 resp =
      .ok (stripQuotes (resp.etagHeader.getD "")) := by
    unfold upload_chunk_to_s3
    rw [if_neg (by omega)]
  refine ⟨hok, ?_, ?_⟩
  · intro hnone
    rw [hok, hnone]
    rfl
  · intro v hh hl hsome
    rw [hok, hsome]
    simp only [Option.getD_some]
    have : stripQuotes ⟨'\"' :: (v.data ++ ['\"'])⟩ = v := by
      unfold stripQuotes
      have := stripChars_wrap '\"' v.data
        (fun a ha => beq_eq_false_iff_ne.mpr (fun hac => hh (hac ▸ ha)))
        (fun a ha => beq_eq_false_iff_ne.mpr (fun hac => hl (hac ▸ ha)))
      simp only [this]
    rw [this]

/-- Witness for C4 (amended): a 2xx response with `ETag: "abc"` yields the
proof `abc`. -/
theorem upload_chunk_etag_witness :
    (200 ≤ 200 ∧ 200 < 300) ∧ upload_chunk_to_s3 ⟨200, some "\"abc\""⟩ = .ok "abc" := by
  refine ⟨⟨by decide, by decide⟩, ?_⟩
  have h := (upload_chunk_etag ⟨200, some "\"abc\""⟩ ⟨by decide, by decide⟩).1
  rw [h]
  rfl

theorem splitFileAux_ne_nil (chunkSize fuel : Nat)
    (data : List Nat) (hd : data ≠ []) (chunkNum : Nat) :
    splitFileAux chunkSize (fuel + 1) data chunkNum ≠ [] := by
  rw [splitFileAux_cons chunkSize fuel data hd chunkNum]
  exact List.cons_ne_nil _ _

/-- Counterexample to C2: for a zero-byte source file, `split_file` still
creates the scratch directory but produces no chunk files, and
`cleanup_chunks` then skips the `rmdir` (its guard `if chunk_files:` is
false), so the scratch directory still exists after `upload_file`. -/
theorem upload_file_empty_leaves_dir :
    ¬ ((upload_file_fsState 1 []).files = [] ∧
       (upload_file_fsState 1 []).dirExists = false) := by
  decide

/-- Claim C2 (amended). After any call to `upload_file` that got as far as
splitting the file, all per-chunk scratch files are removed; the scratch
directory is removed exactly when the source file was nonempty (at least
one chunk file existed to locate the directory by) — for an empty source
file the (empty) scratch directory is left behind. -/
theorem upload_file_cleanup (chunkSize : Nat) (data : List Nat)
    (hc : 0 < chunkSize) :
    (upload_file_fsState chunkSize data).files = [] ∧
    ((upload_file_fsState chunkSize data).dirExists = false ↔ data ≠ []) := by
  have hfilter : ∀ (l : List Nat), l.filter (fun i => !(l.contains i)) = [] := by
    intro l
    apply List.filter_eq_nil_iff.mpr
    intro a ha
    simp [ha]
  by_cases hd : data = []
  · subst hd
    have hcr : (split_file chunkSize []).1.map Prod.fst = [] := by
      simp [split_file, splitFileAux_nil]
    simp [upload_file_fsState, cleanup_chunks, splitFileState, hcr]
  · obtain ⟨a, d, rfl⟩ : ∃ a d, data = a :: d := by
      cases data with
      | nil => exact absurd rfl hd
      | cons a d => exact ⟨a, d, rfl⟩
    have hcr : (split_file chunkSize (a :: d)).1.map Prod.fst ≠ [] := by
      simp only [split_file]
      rw [if_neg (Nat.pos_iff_ne_zero.mp hc)]
      intro h
      exact splitFileAux_ne_nil chunkSize d.length (a :: d)
        (List.cons_ne_nil a d) 1 (List.map_eq_nil_iff.mp h)
    simp [upload_file_fsState, cleanup_chunks, splitFileState, hfilter, hcr, hd]

/-- Witness for C2 (amended): a 3-byte file split with chunk size 2. -/
theorem upload_file_cleanup_witness :
    0 < 2 ∧
    ((upload_file_fsState 2 [1, 2, 3]).files = [] ∧
     ((upload_file_fsState 2 [1, 2, 3]).dirExists = false ↔
       ([1, 2, 3] : List Nat) ≠ [])) :=
  ⟨by decide, upload_file_cleanup 2 [1, 2, 3] (by decide)⟩

/-! ### Helper lemmas about the interpreter's building blocks -/

theorem mem_batchIdxsOf (totalChunks batchSize batchStart i : Nat) :
    i ∈ batchIdxsOf totalChunks batchSize batchStart ↔
      batchStart + 1 ≤ i ∧ i ≤ min (batchStart + batchSize) totalChunks := by
  unfold batchIdxsOf
  rw [List.mem_range'_1]
  omega

theorem range'_pairwise_add (step : Nat) :
    ∀ (n s : Nat), (List.range' s n step).Pairwise (fun a b => a + step ≤ b) := by
  intro n
  induction n with
  | zero => intro s; simp
  | succ n ih =>
    intro s
    rw [List.range'_succ]
    refine List.Pairwise.cons ?_ (ih (s + step))
    intro b hb
    rw [List.mem_range'] at hb
    obtain ⟨i, _, rfl⟩ := hb
    omega

theorem batchStarts_spacing (totalChunks batchSize : Nat) :
    (batchStarts totalChunks batchSize).Pairwise
      (fun a b => a + batchSize ≤ b) :=
  range'_pairwise_add batchSize _ 0

theorem batchStarts_sorted (totalChunks batchSize : Nat)
    (hb : 0 < batchSize) :
    (batchStarts totalChunks batchSize).Pairwise (· < ·) :=
  (batchStarts_spacing totalChunks batchSize).imp (fun h => by omega)

theorem mergeUrls_isSome_of (l : List (Nat × String)) :
    ∀ (urls : Nat → Option String) (i : Nat), (urls i).isSome →
      ((mergeUrls urls l) i).isSome := by
  induction l with
  | nil => intro urls i h; exact h
  | cons p t ih =>
    intro urls i h
    rw [show mergeUrls urls (p :: t) =
      mergeUrls (Function.update urls p.1 (some p.2)) t from rfl]
    apply ih
    by_cases hip : i = p.1
    · subst hip; rw [Function.update_same]; rfl
    · rw [Function.update_noteq hip]; exact h

theorem mergeUrls_isSome_of_mem (l : List (Nat × String)) :
    ∀ (urls : Nat → Option String) (i : Nat) (v : String), (i, v) ∈ l →
      ((mergeUrls urls l) i).isSome := by
  induction l with
  | nil => intro urls i v h; simp at h
  | cons p t ih =>
    intro urls i v h
    obtain ⟨a, b⟩ := p
    rw [show mergeUrls urls ((a, b) :: t) =
      mergeUrls (Function.update urls a (some b)) t from rfl]
    rcases List.mem_cons.mp h with h1 | h1
    · obtain ⟨rfl, rfl⟩ := Prod.mk.inj h1
      apply mergeUrls_isSome_of
      rw [Function.update_same]
      rfl
    · exact ih _ i v h1

theorem refillFold_isSome_of (env : Env) (missing : List Nat) :
    ∀ (urls : Nat → Option String) (i : Nat), (urls i).isSome →
      ((missing.foldl
        (fun u j => mergeUrls u (env.refillUrls (pageOf j))) urls) i).isSome := by
  induction missing with
  | nil => intro urls i h; exact h
  | cons j t ih =>
    intro urls i h
    rw [List.foldl_cons]
    exact ih _ i (mergeUrls_isSome_of _ urls i h)

theorem refillFold_covers (env : Env) (missing : List Nat) :
    ∀ (urls : Nat → Option String) (j : Nat), j ∈ missing →
      ∀ (i : Nat) (v : String), (i, v) ∈ env.refillUrls (pageOf j) →
        ((missing.foldl
          (fun u j' => mergeUrls u (env.refillUrls (pageOf j'))) urls) i).isSome := by
  induction missing with
  | nil => intro urls j h; simp at h
  | cons j0 t ih =>
    intro urls j hj i v hiv
    rw [List.foldl_cons]
    rcases List.mem_cons.mp hj with h1 | h1
    · subst h1
      exact refillFold_isSome_of env t _ i
        (mergeUrls_isSome_of_mem _ urls i v hiv)
    · exact ih _ j h1 i v hiv

theorem collectProofs_ok_map (f : Nat → Except String String) :
    ∀ (l : List (Nat × Nat)) (ps : List ChunkProof),
      collectProofs f l = .ok ps →
      ps.map (fun p => p.chunk_index) = l.map Prod.fst := by
  intro l
  induction l with
  | nil =>
    intro ps h
    rw [show collectProofs f [] = .ok [] from rfl] at h
    injection h with h'
    subst h'
    rfl
  | cons p t ih =>
    intro ps h
    obtain ⟨i, sz⟩ := p
    simp only [collectProofs] at h
    split at h
    · exact absurd h (by simp)
    · split at h
      · exact absurd h (by simp)
      · rename_i heq'
        injection h with h'
        subst h'
        simp only [List.map_cons, ih _ heq']

theorem collectProofs_error_of_mem (f : Nat → Except String String) :
    ∀ (l : List (Nat × Nat)) (j sz : Nat) (msg : String),
      (j, sz) ∈ l → f j = .error msg →
      ∃ e, collectProofs f l = .error e := by
  intro l
  induction l with
  | nil => intro j sz msg h _; simp at h
  | cons p t ih =>
    intro j sz msg h hj
    obtain ⟨i, s0⟩ := p
    rcases hfi : f i with m | etag
    · exact ⟨(i, m), by simp only [collectProofs, hfi]⟩
    · rcases List.mem_cons.mp h with h1 | h1
      · obtain ⟨rfl, rfl⟩ := Prod.mk.inj h1
        rw [hj] at hfi
        exact absurd hfi (by simp)
      · obtain ⟨e, he⟩ := ih j sz msg h1 hj
        exact ⟨e, by simp only [collectProofs, hfi, he]⟩

theorem entriesFor_map_fst (chunks : List (List Nat))
    (batchSize batchStart : Nat) :
    (entriesFor chunks batchSize batchStart).map Prod.fst =
      batchIdxsOf chunks.length batchSize batchStart := by
  simp only [entriesFor, List.map_map]
  exact List.map_id _

theorem upload_mem_upEvs (env : Env) (chunks : List (List Nat))
    (batchSize batchStart : Nat)
    (horder : ∀ b l, (env.order b l).Perm l) (i : Nat) :
    Event.upload i ∈ upEvsOf env chunks batchSize batchStart ↔
      i ∈ batchIdxsOf chunks.length batchSize batchStart := by
  unfold upEvsOf
  rw [List.mem_map]
  constructor
  · rintro ⟨p, hp, hpe⟩
    have h1 : p.1 = i := by injection hpe
    have hp2 : p ∈ entriesFor chunks batchSize batchStart :=
      ((horder batchStart _).mem_iff).mp hp
    have h3 : p.1 ∈ (entriesFor chunks batchSize batchStart).map Prod.fst :=
      List.mem_map.mpr ⟨p, hp2, rfl⟩
    rw [entriesFor_map_fst] at h3
    rwa [h1] at h3
  · intro hi
    have h3 : i ∈ (entriesFor chunks batchSize batchStart).map Prod.fst := by
      rw [entriesFor_map_fst]; exact hi
    obtain ⟨p, hp, hpi⟩ := List.mem_map.mp h3
    refine ⟨p, ((horder batchStart _).mem_iff).mpr hp, ?_⟩
    rw [hpi]

theorem mem_refillEvsOf (urls : Nat → Option String) (idxs : List Nat)
    (e : Event) (h : e ∈ refillEvsOf urls idxs) :
    ∃ i ∈ missingOf urls idxs, e = Event.refill (pageOf i) := by
  obtain ⟨i, hi, he⟩ := List.mem_map.mp h
  exact ⟨i, hi, he.symm⟩

theorem mem_upEvsOf (env : Env) (chunks : List (List Nat))
    (batchSize batchStart : Nat) (e : Event)
    (h : e ∈ upEvsOf env chunks batchSize batchStart) :
    ∃ p ∈ orderedOf env chunks batchSize batchStart, e = Event.upload p.1 := by
  obtain ⟨p, hp, he⟩ := List.mem_map.mp h
  exact ⟨p, hp, he.symm⟩

theorem refillEvsOf_no_report (urls : Nat → Option String) (idxs : List Nat)
    (b : Nat) (ps : List ChunkProof) :
    Event.report b ps ∉ refillEvsOf urls idxs := by
  intro h
  obtain ⟨i, _, he⟩ := mem_refillEvsOf urls idxs _ h
  exact Event.noConfusion he

theorem upEvsOf_no_report (env : Env) (chunks : List (List Nat))
    (batchSize batchStart : Nat) (b : Nat) (ps : List ChunkProof) :
    Event.report b ps ∉ upEvsOf env chunks batchSize batchStart := by
  intro h
  obtain ⟨p, _, he⟩ := mem_upEvsOf env chunks batchSize batchStart _ h
  exact Event.noConfusion he

theorem refillEvsOf_no_upload (urls : Nat → Option String) (idxs : List Nat)
    (i : Nat) : Event.upload i ∉ refillEvsOf urls idxs := by
  intro h
  obtain ⟨j, _, he⟩ := mem_refillEvsOf urls idxs _ h
  exact Event.noConfusion he

theorem reportStarts_of_no_reports (l : List Event)
    (h : ∀ b ps, Event.report b ps ∉ l) : reportStarts l = [] := by
  induction l with
  | nil => rfl
  | cons e t ih =>
    have ht : ∀ b ps, Event.report b ps ∉ t := fun b ps hb =>
      h b ps (List.mem_cons_of_mem _ hb)
    cases e with
    | refill p =>
      rw [show reportStarts (Event.refill p :: t) = reportStarts t from rfl]
      exact ih ht
    | upload i =>
      rw [show reportStarts (Event.upload i :: t) = reportStarts t from rfl]
      exact ih ht
    | report b ps => exact absurd (List.mem_cons_self _ _) (h b ps)

theorem reportStarts_append (l1 l2 : List Event) :
    reportStarts (l1 ++ l2) = reportStarts l1 ++ reportStarts l2 :=
  List.filterMap_append _ _ _

theorem reportStarts_refillEvsOf (urls : Nat → Option String)
    (idxs : List Nat) : reportStarts (refillEvsOf urls idxs) = [] :=
  reportStarts_of_no_reports _ (refillEvsOf_no_report urls idxs)

theorem reportStarts_upEvsOf (env : Env) (chunks : List (List Nat))
    (batchSize batchStart : Nat) :
    reportStarts (upEvsOf env chunks batchSize batchStart) = [] :=
  reportStarts_of_no_reports _ (upEvsOf_no_report env chunks batchSize batchStart)

theorem batchIdxsOf_nodup (totalChunks batchSize batchStart : Nat) :
    (batchIdxsOf totalChunks batchSize batchStart).Nodup :=
  List.nodup_range' _ _

theorem count_upload_map (j : Nat) (l : List (Nat × Nat)) :
    (l.map fun p => Event.upload p.1).count (Event.upload j) =
      (l.map Prod.fst).count j := by
  induction l with
  | nil => rfl
  | cons p t ih =>
    simp only [List.map_cons, List.count_cons, ih]
    by_cases hpj : p.1 = j
    · simp [hpj]
    · simp [hpj]

theorem processBatch_cases (env : Env) (chunks : List (List Nat))
    (batchSize batchStart : Nat) (urls : Nat → Option String) :
    (∃ i, processBatch env chunks batchSize batchStart urls =
      (refillEvsOf urls (batchIdxsOf chunks.length batchSize batchStart),
       .error (.noUrl i))) ∨
    (∃ i msg,
      processBatch env chunks batchSize batchStart urls =
        (refillEvsOf urls (batchIdxsOf chunks.length batchSize batchStart) ++
          upEvsOf env chunks batchSize batchStart,
         .error (.chunkFailed i msg)) ∧
      collectProofs env.uploadEtag (orderedOf env chunks batchSize batchStart) =
        .error (i, msg)) ∨
    (∃ proofs,
      processBatch env chunks batchSize batchStart urls =
        (refillEvsOf urls (batchIdxsOf chunks.length batchSize batchStart) ++
          upEvsOf env chunks batchSize batchStart ++
          [Event.report batchStart proofs],
         .ok ((refillPhase env urls (missingOf urls
            (batchIdxsOf chunks.length batchSize batchStart))).2,
          env.reportResp batchStart)) ∧
      collectProofs env.uploadEtag (orderedOf env chunks batchSize batchStart) =
        .ok proofs) := by
  unfold processBatch
  split
  · exact Or.inl ⟨_, rfl⟩
  · split
    · rename_i e heq
      refine Or.inr (Or.inl ⟨e.1, e.2, rfl, ?_⟩)
      rw [heq]
    · rename_i proofs heq
      exact Or.inr (Or.inr ⟨proofs, rfl, heq⟩)

theorem runBatches_nil (env : Env) (chunks : List (List Nat))
    (batchSize : Nat) (urls : Nat → Option String) :
    runBatches env chunks batchSize [] urls = ([], .ok none) := rfl

theorem runBatches_cons_error (env : Env) (chunks : List (List Nat))
    (batchSize batchStart : Nat) (rest : List Nat)
    (urls : Nat → Option String) (evs : List Event) (e : UpErr)
    (h : processBatch env chunks batchSize batchStart urls = (evs, .error e)) :
    runBatches env chunks batchSize (batchStart :: rest) urls =
      (evs, .error e) := by
  simp only [runBatches, h]

theorem runBatches_cons_okTrue (env : Env) (chunks : List (List Nat))
    (batchSize batchStart : Nat) (rest : List Nat)
    (urls urls1 : Nat → Option String) (evs : List Event)
    (respUrl : Option String)
    (h : processBatch env chunks batchSize batchStart urls =
      (evs, .ok (urls1, respUrl)))
    (ht : truthy respUrl = true) :
    runBatches env chunks batchSize (batchStart :: rest) urls =
      (evs, .ok respUrl) := by
  simp only [runBatches, h]
  rw [if_pos ht]

theorem runBatches_cons_okFalse (env : Env) (chunks : List (List Nat))
    (batchSize batchStart : Nat) (rest : List Nat)
    (urls urls1 : Nat → Option String) (evs : List Event)
    (respUrl : Option String)
    (h : processBatch env chunks batchSize batchStart urls =
      (evs, .ok (urls1, respUrl)))
    (ht : truthy respUrl = false) :
    runBatches env chunks batchSize (batchStart :: rest) urls =
      (evs ++ (runBatches env chunks batchSize rest urls1).1,
       (runBatches env chunks batchSize rest urls1).2) := by
  simp only [runBatches, h]
  rw [if_neg (by simp [ht])]

theorem reportStarts_nil : reportStarts [] = [] := rfl

theorem reportStarts_report_cons (b : Nat) (ps : List ChunkProof)
    (t : List Event) :
    reportStarts (Event.report b ps :: t) = b :: reportStarts t := rfl

theorem runBatches_reportStarts (env : Env) (chunks : List (List Nat))
    (batchSize : Nat) :
    ∀ (starts : List Nat) (urls : Nat → Option String),
      ∃ m, reportStarts (runBatches env chunks batchSize starts urls).1 =
        starts.take m := by
  intro starts
  induction starts with
  | nil => intro urls; exact ⟨0, rfl⟩
  | cons b rest ih =>
    intro urls
    rcases processBatch_cases env chunks batchSize b urls with
      ⟨i, hpb⟩ | ⟨i, msg, hpb, _⟩ | ⟨proofs, hpb, _⟩
    · rw [runBatches_cons_error env chunks batchSize b rest urls _ _ hpb]
      exact ⟨0, reportStarts_refillEvsOf _ _⟩
    · rw [runBatches_cons_error env chunks batchSize b rest urls _ _ hpb]
      exact ⟨0, by simp [reportStarts_append, reportStarts_refillEvsOf,
        reportStarts_upEvsOf]⟩
    · by_cases ht : truthy (env.reportResp b) = true
      · rw [runBatches_cons_okTrue env chunks batchSize b rest urls _ _ _ hpb ht]
        exact ⟨1, by simp [reportStarts_append, reportStarts_refillEvsOf,
          reportStarts_upEvsOf, reportStarts_report_cons, reportStarts_nil]⟩
      · have htf : truthy (env.reportResp b) = false := by
          revert ht; cases truthy (env.reportResp b) <;> simp
        rw [runBatches_cons_okFalse env chunks batchSize b rest urls _ _ _ hpb htf]
        obtain ⟨m, hm⟩ := ih ((refillPhase env urls (missingOf urls
          (batchIdxsOf chunks.length batchSize b))).2)
        exact ⟨m + 1, by simp [reportStarts_append, reportStarts_refillEvsOf,
          reportStarts_upEvsOf, reportStarts_report_cons, reportStarts_nil, hm,
          List.take_succ_cons]⟩

theorem runBatches_upload_mem (env : Env) (chunks : List (List Nat))
    (batchSize : Nat) (horder : ∀ b l, (env.order b l).Perm l) :
    ∀ (starts : List Nat) (urls : Nat → Option String) (i : Nat),
      Event.upload i ∈ (runBatches env chunks batchSize starts urls).1 →
      ∃ b ∈ starts, i ∈ batchIdxsOf chunks.length batchSize b := by
  intro starts
  induction starts with
  | nil =>
    intro urls i h
    rw [runBatches_nil] at h
    simp at h
  | cons b rest ih =>
    intro urls i h
    rcases processBatch_cases env chunks batchSize b urls with
      ⟨j, hpb⟩ | ⟨j, msg, hpb, _⟩ | ⟨proofs, hpb, _⟩
    · rw [runBatches_cons_error env chunks batchSize b rest urls _ _ hpb] at h
      exact absurd h (refillEvsOf_no_upload _ _ _)
    · rw [runBatches_cons_error env chunks batchSize b rest urls _ _ hpb] at h
      rcases List.mem_append.mp h with h1 | h1
      · exact absurd h1 (refillEvsOf_no_upload _ _ _)
      · exact ⟨b, List.mem_cons_self _ _,
          (upload_mem_upEvs env chunks batchSize b horder i).mp h1⟩
    · by_cases ht : truthy (env.reportResp b) = true
      · rw [runBatches_cons_okTrue env chunks batchSize b rest urls _ _ _
          hpb ht] at h
        rcases List.mem_append.mp h with h1 | h1
        · rcases List.mem_append.mp h1 with h2 | h2
          · exact absurd h2 (refillEvsOf_no_upload _ _ _)
          · exact ⟨b, List.mem_cons_self _ _,
              (upload_mem_upEvs env chunks batchSize b horder i).mp h2⟩
        · rw [List.mem_singleton] at h1
          exact Event.noConfusion h1
      · have htf : truthy (env.reportResp b) = false := by
          revert ht; cases truthy (env.reportResp b) <;> simp
        rw [runBatches_cons_okFalse env chunks batchSize b rest urls _ _ _
          hpb htf] at h
        rcases List.mem_append.mp h with h1 | h1
        · rcases List.mem_append.mp h1 with h2 | h2
          · rcases List.mem_append.mp h2 with h3 | h3
            · exact absurd h3 (refillEvsOf_no_upload _ _ _)
            · exact ⟨b, List.mem_cons_self _ _,
                (upload_mem_upEvs env chunks batchSize b horder i).mp h3⟩
          · rw [List.mem_singleton] at h2
            exact Event.noConfusion h2
        · obtain ⟨b', hb', hib'⟩ := ih _ i h1
          exact ⟨b', List.mem_cons_of_mem _ hb', hib'⟩

theorem runBatches_report_shape (env : Env) (chunks : List (List Nat))
    (batchSize : Nat) (horder : ∀ b l, (env.order b l).Perm l) :
    ∀ (starts : List Nat) (urls : Nat → Option String) (b : Nat)
      (ps : List ChunkProof),
      Event.report b ps ∈ (runBatches env chunks batchSize starts urls).1 →
      b ∈ starts ∧
      collectProofs env.uploadEtag (orderedOf env chunks batchSize b) =
        .ok ps ∧
      ∃ pre post, (runBatches env chunks batchSize starts urls).1 =
        pre ++ Event.report b ps :: post ∧
        ∀ i ∈ batchIdxsOf chunks.length batchSize b, Event.upload i ∈ pre := by
  intro starts
  induction starts with
  | nil =>
    intro urls b ps h
    rw [runBatches_nil] at h
    simp at h
  | cons b0 rest ih =>
    intro urls b ps h
    rcases processBatch_cases env chunks batchSize b0 urls with
      ⟨j, hpb⟩ | ⟨j, msg, hpb, _⟩ | ⟨proofs, hpb, hcp⟩
    · rw [runBatches_cons_error env chunks batchSize b0 rest urls _ _ hpb] at h
      exact absurd h (refillEvsOf_no_report _ _ _ _)
    · rw [runBatches_cons_error env chunks batchSize b0 rest urls _ _ hpb] at h
      rcases List.mem_append.mp h with h1 | h1
      · exact absurd h1 (refillEvsOf_no_report _ _ _ _)
      · exact absurd h1 (upEvsOf_no_report _ _ _ _ _ _)
    · by_cases ht : truthy (env.reportResp b0) = true
      · rw [runBatches_cons_okTrue env chunks batchSize b0 rest urls _ _ _
          hpb ht] at h ⊢
        rcases List.mem_append.mp h with h1 | h1
        · rcases List.mem_append.mp h1 with h2 | h2
          · exact absurd h2 (refillEvsOf_no_report _ _ _ _)
          · exact absurd h2 (upEvsOf_no_report _ _ _ _ _ _)
        · rw [List.mem_singleton] at h1
          obtain ⟨rfl, rfl⟩ := Event.report.inj h1
          refine ⟨List.mem_cons_self _ _, hcp,
            refillEvsOf urls (batchIdxsOf chunks.length batchSize b) ++
              upEvsOf env chunks batchSize b, [], ?_, ?_⟩
          · simp [List.append_assoc]
          · intro i hi
            exact List.mem_append_right _
              ((upload_mem_upEvs env chunks batchSize b horder i).mpr hi)
      · have htf : truthy (env.reportResp b0) = false := by
          revert ht; cases truthy (env.reportResp b0) <;> simp
        rw [runBatches_cons_okFalse env chunks batchSize b0 rest urls _ _ _
          hpb htf] at h ⊢
        rcases List.mem_append.mp h with h1 | h1
        · rcases List.mem_append.mp h1 with h2 | h2
          · rcases List.mem_append.mp h2 with h3 | h3
            · exact absurd h3 (refillEvsOf_no_report _ _ _ _)
            · exact absurd h3 (upEvsOf_no_report _ _ _ _ _ _)
          · rw [List.mem_singleton] at h2
            obtain ⟨rfl, rfl⟩ := Event.report.inj h2
            refine ⟨List.mem_cons_self _ _, hcp,
              refillEvsOf urls (batchIdxsOf chunks.length batchSize b) ++
                upEvsOf env chunks batchSize b,
              (runBatches env chunks batchSize rest ((refillPhase env urls
                (missingOf urls (batchIdxsOf chunks.length batchSize b))).2)).1,
              ?_, ?_⟩
            · simp [List.append_assoc]
            · intro i hi
              exact List.mem_append_right _
                ((upload_mem_upEvs env chunks batchSize b horder i).mpr hi)
        · obtain ⟨hbr, hcpb, pre', post', hsplit, hups⟩ := ih _ b ps h1
          refine ⟨List.mem_cons_of_mem _ hbr, hcpb,
            (refillEvsOf urls (batchIdxsOf chunks.length batchSize b0) ++
              upEvsOf env chunks batchSize b0 ++ [Event.report b0 proofs]) ++
              pre', post', ?_, ?_⟩
          · rw [hsplit]
            simp [List.append_assoc]
          · intro i hi
            exact List.mem_append_right _ (hups i hi)

theorem runBatches_early_return (env : Env) (chunks : List (List Nat))
    (batchSize : Nat) (horder : ∀ b l, (env.order b l).Perm l)
    (k : Nat) (u : String) (hurl : env.reportResp k = some u) (hne : u ≠ "") :
    ∀ (starts : List Nat) (urls : Nat → Option String) (ps : List ChunkProof),
      starts.Pairwise (· < ·) →
      Event.report k ps ∈ (runBatches env chunks batchSize starts urls).1 →
      (runBatches env chunks batchSize starts urls).2 = .ok (some u) ∧
      (∃ pre, (runBatches env chunks batchSize starts urls).1 =
        pre ++ [Event.report k ps]) ∧
      (∀ k' ps', Event.report k' ps' ∈
        (runBatches env chunks batchSize starts urls).1 → k' ≤ k) ∧
      (∀ i, Event.upload i ∈ (runBatches env chunks batchSize starts urls).1 →
        ∃ b, b ≤ k ∧ i ∈ batchIdxsOf chunks.length batchSize b) := by
  have htk : truthy (env.reportResp k) = true := by
    rw [hurl]
    simp [truthy, hne]
  intro starts
  induction starts with
  | nil =>
    intro urls ps _ h
    rw [runBatches_nil] at h
    simp at h
  | cons b0 rest ih =>
    intro urls ps hpw h
    rcases processBatch_cases env chunks batchSize b0 urls with
      ⟨j, hpb⟩ | ⟨j, msg, hpb, _⟩ | ⟨proofs, hpb, hcp⟩
    · rw [runBatches_cons_error env chunks batchSize b0 rest urls _ _ hpb] at h
      exact absurd h (refillEvsOf_no_report _ _ _ _)
    · rw [runBatches_cons_error env chunks batchSize b0 rest urls _ _ hpb] at h
      rcases List.mem_append.mp h with h1 | h1
      · exact absurd h1 (refillEvsOf_no_report _ _ _ _)
      · exact absurd h1 (upEvsOf_no_report _ _ _ _ _ _)
    · by_cases ht : truthy (env.reportResp b0) = true
      · rw [runBatches_cons_okTrue env chunks batchSize b0 rest urls _ _ _
          hpb ht] at h ⊢
        rcases List.mem_append.mp h with h1 | h1
        · rcases List.mem_append.mp h1 with h2 | h2
          · exact absurd h2 (refillEvsOf_no_report _ _ _ _)
          · exact absurd h2 (upEvsOf_no_report _ _ _ _ _ _)
        · rw [List.mem_singleton] at h1
          obtain ⟨rfl, rfl⟩ := Event.report.inj h1
          refine ⟨by simp [hurl], ?_, ?_, ?_⟩
          · exact ⟨refillEvsOf urls (batchIdxsOf chunks.length batchSize k) ++
              upEvsOf env chunks batchSize k, by simp [List.append_assoc]⟩
          · intro k' ps' h'
            rcases List.mem_append.mp h' with h1' | h1'
            · rcases List.mem_append.mp h1' with h2' | h2'
              · exact absurd h2' (refillEvsOf_no_report _ _ _ _)
              · exact absurd h2' (upEvsOf_no_report _ _ _ _ _ _)
            · rw [List.mem_singleton] at h1'
              obtain ⟨rfl, -⟩ := Event.report.inj h1'
              exact le_rfl
          · intro i hi
            rcases List.mem_append.mp hi with h1' | h1'
            · rcases List.mem_append.mp h1' with h2' | h2'
              · exact absurd h2' (refillEvsOf_no_upload _ _ _)
              · exact ⟨k, le_rfl,
                  (upload_mem_upEvs env chunks batchSize k horder i).mp h2'⟩
            · rw [List.mem_singleton] at h1'
              exact Event.noConfusion h1'
      · have htf : truthy (env.reportResp b0) = false := by
          revert ht; cases truthy (env.reportResp b0) <;> simp
        rw [runBatches_cons_okFalse env chunks batchSize b0 rest urls _ _ _
          hpb htf] at h ⊢
        rcases List.mem_append.mp h with h1 | h1
        · rcases List.mem_append.mp h1 with h2 | h2
          · rcases List.mem_append.mp h2 with h3 | h3
            · exact absurd h3 (refillEvsOf_no_report _ _ _ _)
            · exact absurd h3 (upEvsOf_no_report _ _ _ _ _ _)
          · rw [List.mem_singleton] at h2
            obtain ⟨rfl, rfl⟩ := Event.report.inj h2
            rw [htk] at htf
            exact Bool.noConfusion htf
        · have hpw' : rest.Pairwise (· < ·) := hpw.of_cons
          obtain ⟨hres, ⟨pre', hpre'⟩, hreps, hups⟩ := ih _ ps hpw' h1
          have hkrest : k ∈ rest :=
            (runBatches_report_shape env chunks batchSize horder rest _
              k ps h1).1
          have hb0k : b0 < k := (List.pairwise_cons.mp hpw).1 k hkrest
          refine ⟨hres, ?_, ?_, ?_⟩
          · refine ⟨(refillEvsOf urls (batchIdxsOf chunks.length batchSize b0) ++
              upEvsOf env chunks batchSize b0 ++ [Event.report b0 proofs]) ++
              pre', ?_⟩
            rw [show ((refillEvsOf urls (batchIdxsOf chunks.length batchSize b0) ++
              upEvsOf env chunks batchSize b0 ++ [Event.report b0 proofs]) ++
              (runBatches env chunks batchSize rest ((refillPhase env urls
                (missingOf urls (batchIdxsOf chunks.length batchSize b0))).2)).1,
              (runBatches env chunks batchSize rest ((refillPhase env urls
                (missingOf urls (batchIdxsOf chunks.length batchSize b0))).2)).2).1 =
              (refillEvsOf urls (batchIdxsOf chunks.length batchSize b0) ++
              upEvsOf env chunks batchSize b0 ++ [Event.report b0 proofs]) ++
              (runBatches env chunks batchSize rest ((refillPhase env urls
                (missingOf urls (batchIdxsOf chunks.length batchSize b0))).2)).1
              from rfl, hpre']
            simp [List.append_assoc]
          · intro k' ps' h'
            rcases List.mem_append.mp h' with h1' | h1'
            · rcases List.mem_append.mp h1' with h2' | h2'
              · rcases List.mem_append.mp h2' with h3' | h3'
                · exact absurd h3' (refillEvsOf_no_report _ _ _ _)
                · exact absurd h3' (upEvsOf_no_report _ _ _ _ _ _)
              · rw [List.mem_singleton] at h2'
                obtain ⟨rfl, -⟩ := Event.report.inj h2'
                exact le_of_lt hb0k
            · exact hreps k' ps' h1'
          · intro i hi
            rcases List.mem_append.mp hi with h1' | h1'
            · rcases List.mem_append.mp h1' with h2' | h2'
              · rcases List.mem_append.mp h2' with h3' | h3'
                · exact absurd h3' (refillEvsOf_no_upload _ _ _)
                · exact ⟨b0, le_of_lt hb0k,
                    (upload_mem_upEvs env chunks batchSize b0 horder i).mp h3'⟩
              · rw [List.mem_singleton] at h2'
                exact Event.noConfusion h2'
            · exact hups i h1'

theorem ordered_mem_of_idx (env : Env) (chunks : List (List Nat))
    (batchSize batchStart : Nat) (horder : ∀ b l, (env.order b l).Perm l)
    (j : Nat) (hj : j ∈ batchIdxsOf chunks.length batchSize batchStart) :
    (j, (chunks.getD (j - 1) []).length) ∈
      orderedOf env chunks batchSize batchStart := by
  apply ((horder batchStart _).mem_iff).mpr
  unfold entriesFor
  exact List.mem_map.mpr ⟨j, hj, rfl⟩

theorem count_upload_upEvs_le_one (env : Env) (chunks : List (List Nat))
    (batchSize batchStart : Nat) (horder : ∀ b l, (env.order b l).Perm l)
    (j : Nat) :
    (upEvsOf env chunks batchSize batchStart).count (Event.upload j) ≤ 1 := by
  unfold upEvsOf
  rw [count_upload_map]
  have hperm : ((orderedOf env chunks batchSize batchStart).map Prod.fst).Perm
      ((entriesFor chunks batchSize batchStart).map Prod.fst) :=
    (horder batchStart _).map Prod.fst
  rw [hperm.count_eq, entriesFor_map_fst]
  exact (List.nodup_iff_count_le_one.mp (batchIdxsOf_nodup _ _ _)) j

theorem runBatches_chunk_failure (env : Env) (chunks : List (List Nat))
    (batchSize : Nat) (horder : ∀ b l, (env.order b l).Perm l)
    (s j : Nat) (msg : String)
    (hjs : j ∈ batchIdxsOf chunks.length batchSize s)
    (hfail : env.uploadEtag j = .error msg) :
    ∀ (starts : List Nat) (urls : Nat → Option String),
      s ∈ starts →
      starts.Pairwise (fun a b => a + batchSize ≤ b) →
      (∀ ps, Event.report s ps ∉
        (runBatches env chunks batchSize starts urls).1) ∧
      (∀ s' ps, s < s' → Event.report s' ps ∉
        (runBatches env chunks batchSize starts urls).1) ∧
      (∀ i, Event.upload i ∈ (runBatches env chunks batchSize starts urls).1 →
        i ≤ min (s + batchSize) chunks.length) ∧
      ((runBatches env chunks batchSize starts urls).1.count
        (Event.upload j) ≤ 1) ∧
      (Event.upload j ∈ (runBatches env chunks batchSize starts urls).1 →
        ∃ i' msg', (runBatches env chunks batchSize starts urls).2 =
          .error (.chunkFailed i' msg')) := by
  intro starts
  induction starts with
  | nil => intro urls hs _; simp at hs
  | cons b0 rest ih =>
    intro urls hs hsp
    have hspacing := (List.pairwise_cons.mp hsp).1
    have hsp' := (List.pairwise_cons.mp hsp).2
    by_cases hb0s : b0 = s
    · subst hb0s
      rcases processBatch_cases env chunks batchSize b0 urls with
        ⟨i0, hpb⟩ | ⟨i0, msg0, hpb, hcp⟩ | ⟨proofs, hpb, hcp⟩
      · have htr : (runBatches env chunks batchSize (b0 :: rest) urls).1 =
            refillEvsOf urls (batchIdxsOf chunks.length batchSize b0) := by
          rw [runBatches_cons_error env chunks batchSize b0 rest urls _ _ hpb]
        rw [htr]
        refine ⟨?_, ?_, ?_, ?_, ?_⟩
        · intro ps hmem; exact refillEvsOf_no_report _ _ _ _ hmem
        · intro s' ps _ hmem; exact refillEvsOf_no_report _ _ _ _ hmem
        · intro i hi; exact absurd hi (refillEvsOf_no_upload _ _ _)
        · rw [List.count_eq_zero.mpr (refillEvsOf_no_upload _ _ j)]; omega
        · intro hj'; exact absurd hj' (refillEvsOf_no_upload _ _ _)
      · have htr : (runBatches env chunks batchSize (b0 :: rest) urls).1 =
            refillEvsOf urls (batchIdxsOf chunks.length batchSize b0) ++
              upEvsOf env chunks batchSize b0 := by
          rw [runBatches_cons_error env chunks batchSize b0 rest urls _ _ hpb]
        have hrs : (runBatches env chunks batchSize (b0 :: rest) urls).2 =
            .error (.chunkFailed i0 msg0) := by
          rw [runBatches_cons_error env chunks batchSize b0 rest urls _ _ hpb]
        rw [htr, hrs]
        refine ⟨?_, ?_, ?_, ?_, ?_⟩
        · intro ps hmem
          rcases List.mem_append.mp hmem with h1 | h1
          · exact refillEvsOf_no_report _ _ _ _ h1
          · exact upEvsOf_no_report _ _ _ _ _ _ h1
        · intro s' ps _ hmem
          rcases List.mem_append.mp hmem with h1 | h1
          · exact refillEvsOf_no_report _ _ _ _ h1
          · exact upEvsOf_no_report _ _ _ _ _ _ h1
        · intro i hi
          rcases List.mem_append.mp hi with h1 | h1
          · exact absurd h1 (refillEvsOf_no_upload _ _ _)
          · have hin := (upload_mem_upEvs env chunks batchSize b0 horder i).mp h1
            rw [mem_batchIdxsOf] at hin
            omega
        · rw [List.count_append,
            List.count_eq_zero.mpr (refillEvsOf_no_upload _ _ j)]
          simpa using count_upload_upEvs_le_one env chunks batchSize b0 horder j
        · intro _; exact ⟨i0, msg0, rfl⟩
      · exfalso
        obtain ⟨e, he⟩ := collectProofs_error_of_mem env.uploadEtag
          (orderedOf env chunks batchSize b0) j
          ((chunks.getD (j - 1) []).length) msg
          (ordered_mem_of_idx env chunks batchSize b0 horder j hjs) hfail
        rw [hcp] at he
        exact Except.noConfusion he
    · have hsrest : s ∈ rest := by
        rcases List.mem_cons.mp hs with h | h
        · exact absurd h.symm hb0s
        · exact h
      have hb0le : b0 + batchSize ≤ s := hspacing s hsrest
      have hjnot : j ∉ batchIdxsOf chunks.length batchSize b0 := by
        rw [mem_batchIdxsOf] at hjs ⊢
        omega
      have hjnotup : Event.upload j ∉ upEvsOf env chunks batchSize b0 :=
        fun h => hjnot ((upload_mem_upEvs env chunks batchSize b0 horder j).mp h)
      rcases processBatch_cases env chunks batchSize b0 urls with
        ⟨i0, hpb⟩ | ⟨i0, msg0, hpb, hcp⟩ | ⟨proofs, hpb, hcp⟩
      · have htr : (runBatches env chunks batchSize (b0 :: rest) urls).1 =
            refillEvsOf urls (batchIdxsOf chunks.length batchSize b0) := by
          rw [runBatches_cons_error env chunks batchSize b0 rest urls _ _ hpb]
        rw [htr]
        refine ⟨?_, ?_, ?_, ?_, ?_⟩
        · intro ps hmem; exact refillEvsOf_no_report _ _ _ _ hmem
        · intro s' ps _ hmem; exact refillEvsOf_no_report _ _ _ _ hmem
        · intro i hi; exact absurd hi (refillEvsOf_no_upload _ _ _)
        · rw [List.count_eq_zero.mpr (refillEvsOf_no_upload _ _ j)]; omega
        · intro hj'; exact absurd hj' (refillEvsOf_no_upload _ _ _)
      · have htr : (runBatches env chunks batchSize (b0 :: rest) urls).1 =
            refillEvsOf urls (batchIdxsOf chunks.length batchSize b0) ++
              upEvsOf env chunks batchSize b0 := by
          rw [runBatches_cons_error env chunks batchSize b0 rest urls _ _ hpb]
        have hrs : (runBatches env chunks batchSize (b0 :: rest) urls).2 =
            .error (.chunkFailed i0 msg0) := by
          rw [runBatches_cons_error env chunks batchSize b0 rest urls _ _ hpb]
        rw [htr, hrs]
        refine ⟨?_, ?_, ?_, ?_, ?_⟩
        · intro ps hmem
          rcases List.mem_append.mp hmem with h1 | h1
          · exact refillEvsOf_no_report _ _ _ _ h1
          · exact upEvsOf_no_report _ _ _ _ _ _ h1
        · intro s' ps _ hmem
          rcases List.mem_append.mp hmem with h1 | h1
          · exact refillEvsOf_no_report _ _ _ _ h1
          · exact upEvsOf_no_report _ _ _ _ _ _ h1
        · intro i hi
          rcases List.mem_append.mp hi with h1 | h1
          · exact absurd h1 (refillEvsOf_no_upload _ _ _)
          · have hin := (upload_mem_upEvs env chunks batchSize b0 horder i).mp h1
            rw [mem_batchIdxsOf] at hin
            omega
        · rw [List.count_append,
            List.count_eq_zero.mpr (refillEvsOf_no_upload _ _ j),
            List.count_eq_zero.mpr hjnotup]
          omega
        · intro _; exact ⟨i0, msg0, rfl⟩
      · by_cases ht : truthy (env.reportResp b0) = true
        · have htr : (runBatches env chunks batchSize (b0 :: rest) urls).1 =
              refillEvsOf urls (batchIdxsOf chunks.length batchSize b0) ++
                upEvsOf env chunks batchSize b0 ++ [Event.report b0 proofs] := by
            rw [runBatches_cons_okTrue env chunks batchSize b0 rest urls _ _ _
              hpb ht]
          rw [htr]
          refine ⟨?_, ?_, ?_, ?_, ?_⟩
          · intro ps hmem
            rcases List.mem_append.mp hmem with h1 | h1
            · rcases List.mem_append.mp h1 with h2 | h2
              · exact refillEvsOf_no_report _ _ _ _ h2
              · exact upEvsOf_no_report _ _ _ _ _ _ h2
            · rw [List.mem_singleton] at h1
              obtain ⟨rfl, -⟩ := Event.report.inj h1
              omega
          · intro s' ps hss' hmem
            rcases List.mem_append.mp hmem with h1 | h1
            · rcases List.mem_append.mp h1 with h2 | h2
              · exact refillEvsOf_no_report _ _ _ _ h2
              · exact upEvsOf_no_report _ _ _ _ _ _ h2
            · rw [List.mem_singleton] at h1
              obtain ⟨rfl, -⟩ := Event.report.inj h1
              omega
          · intro i hi
            rcases List.mem_append.mp hi with h1 | h1
            · rcases List.mem_append.mp h1 with h2 | h2
              · exact absurd h2 (refillEvsOf_no_upload _ _ _)
              · have hin :=
                  (upload_mem_upEvs env chunks batchSize b0 horder i).mp h2
                rw [mem_batchIdxsOf] at hin
                omega
            · rw [List.mem_singleton] at h1
              exact Event.noConfusion h1
          · rw [List.count_append, List.count_append,
              List.count_eq_zero.mpr (refillEvsOf_no_upload _ _ j),
              List.count_eq_zero.mpr hjnotup]
            simp
          · intro hj'
            rcases List.mem_append.mp hj' with h1 | h1
            · rcases List.mem_append.mp h1 with h2 | h2
              · exact absurd h2 (refillEvsOf_no_upload _ _ _)
              · exact absurd h2 hjnotup
            · rw [List.mem_singleton] at h1
              exact Event.noConfusion h1
        · have htf : truthy (env.reportResp b0) = false := by
            revert ht; cases truthy (env.reportResp b0) <;> simp
          have htr : (runBatches env chunks batchSize (b0 :: rest) urls).1 =
              (refillEvsOf urls (batchIdxsOf chunks.length batchSize b0) ++
                upEvsOf env chunks batchSize b0 ++ [Event.report b0 proofs]) ++
                (runBatches env chunks batchSize rest ((refillPhase env urls
                  (missingOf urls
                    (batchIdxsOf chunks.length batchSize b0))).2)).1 := by
            rw [runBatches_cons_okFalse env chunks batchSize b0 rest urls _ _ _
              hpb htf]
          have hrs : (runBatches env chunks batchSize (b0 :: rest) urls).2 =
              (runBatches env chunks batchSize rest ((refillPhase env urls
                (missingOf urls
                  (batchIdxsOf chunks.length batchSize b0))).2)).2 := by
            rw [runBatches_cons_okFalse env chunks batchSize b0 rest urls _ _ _
              hpb htf]
          obtain ⟨ih1, ih2, ih3, ih4, ih5⟩ := ih ((refillPhase env urls
            (missingOf urls (batchIdxsOf chunks.length batchSize b0))).2)
            hsrest hsp'
          rw [htr, hrs]
          refine ⟨?_, ?_, ?_, ?_, ?_⟩
          · intro ps hmem
            rcases List.mem_append.mp hmem with h1 | h1
            · rcases List.mem_append.mp h1 with h2 | h2
              · rcases List.mem_append.mp h2 with h3 | h3
                · exact refillEvsOf_no_report _ _ _ _ h3
                · exact upEvsOf_no_report _ _ _ _ _ _ h3
              · rw [List.mem_singleton] at h2
                obtain ⟨rfl, -⟩ := Event.report.inj h2
                omega
            · exact ih1 ps h1
          · intro s' ps hss' hmem
            rcases List.mem_append.mp hmem with h1 | h1
            · rcases List.mem_append.mp h1 with h2 | h2
              · rcases List.mem_append.mp h2 with h3 | h3
                · exact refillEvsOf_no_report _ _ _ _ h3
                · exact upEvsOf_no_report _ _ _ _ _ _ h3
              · rw [List.mem_singleton] at h2
                obtain ⟨rfl, -⟩ := Event.report.inj h2
                omega
            · exact ih2 s' ps hss' h1
          · intro i hi
            rcases List.mem_append.mp hi with h1 | h1
            · rcases List.mem_append.mp h1 with h2 | h2
              · rcases List.mem_append.mp h2 with h3 | h3
                · exact absurd h3 (refillEvsOf_no_upload _ _ _)
                · have hin :=
                    (upload_mem_upEvs env chunks batchSize b0 horder i).mp h3
                  rw [mem_batchIdxsOf] at hin
                  omega
              · rw [List.mem_singleton] at h2
                exact Event.noConfusion h2
            · exact ih3 i h1
          · rw [List.count_append, List.count_append, List.count_append,
              List.count_eq_zero.mpr (refillEvsOf_no_upload _ _ j),
              List.count_eq_zero.mpr hjnotup]
            simpa using ih4
          · intro hj'
            rcases List.mem_append.mp hj' with h1 | h1
            · rcases List.mem_append.mp h1 with h2 | h2
              · rcases List.mem_append.mp h2 with h3 | h3
                · exact absurd h3 (refillEvsOf_no_upload _ _ _)
                · exact absurd h3 hjnotup
              · rw [List.mem_singleton] at h2
                exact Event.noConfusion h2
            · exact ih5 h1

theorem runBatches_report_proofs (env : Env) (chunks : List (List Nat))
    (batchSize : Nat) (horder : ∀ b l, (env.order b l).Perm l)
    (starts : List Nat) (urls : Nat → Option String) (b : Nat)
    (ps : List ChunkProof)
    (h : Event.report b ps ∈ (runBatches env chunks batchSize starts urls).1) :
    ps.map (fun p => p.chunk_index) =
      (orderedOf env chunks batchSize b).map Prod.fst ∧
    (ps.map (fun p => p.chunk_index)).Perm
      (batchIdxsOf chunks.length batchSize b) ∧
    (∀ i ∈ batchIdxsOf chunks.length batchSize b,
      (ps.map (fun p => p.chunk_index)).count i = 1) ∧
    (∀ i, i ∉ batchIdxsOf chunks.length batchSize b →
      (ps.map (fun p => p.chunk_index)).count i = 0) := by
  obtain ⟨-, hcp, -⟩ :=
    runBatches_report_shape env chunks batchSize horder starts urls b ps h
  have h1 : ps.map (fun p => p.chunk_index) =
      (orderedOf env chunks batchSize b).map Prod.fst :=
    collectProofs_ok_map env.uploadEtag _ ps hcp
  have hperm : (ps.map (fun p => p.chunk_index)).Perm
      (batchIdxsOf chunks.length batchSize b) := by
    rw [h1, ← entriesFor_map_fst chunks batchSize b]
    exact (horder b _).map Prod.fst
  refine ⟨h1, hperm, ?_, ?_⟩
  · intro i hi
    rw [hperm.count_eq]
    exact List.count_eq_one_of_mem (batchIdxsOf_nodup _ _ _) hi
  · intro i hi
    rw [hperm.count_eq]
    exact List.count_eq_zero.mpr hi

theorem processBatch_refill_shape (env : Env) (chunks : List (List Nat))
    (batchSize batchStart : Nat) (urls : Nat → Option String) :
    ∃ rest, (processBatch env chunks batchSize batchStart urls).1 =
      refillEvsOf urls (batchIdxsOf chunks.length batchSize batchStart) ++
        rest ∧
      ∀ p, Event.refill p ∉ rest := by
  rcases processBatch_cases env chunks batchSize batchStart urls with
    ⟨i, hpb⟩ | ⟨i, msg, hpb, -⟩ | ⟨proofs, hpb, -⟩ <;> rw [hpb]
  · exact ⟨[], by simp, fun p h => absurd h (List.not_mem_nil _)⟩
  · refine ⟨upEvsOf env chunks batchSize batchStart, rfl, ?_⟩
    intro p hp
    obtain ⟨q, -, hq⟩ := mem_upEvsOf env chunks batchSize batchStart _ hp
    exact Event.noConfusion hq
  · refine ⟨upEvsOf env chunks batchSize batchStart ++
      [Event.report batchStart proofs], by simp [List.append_assoc], ?_⟩
    intro p hp
    rcases List.mem_append.mp hp with h1 | h1
    · obtain ⟨q, -, hq⟩ := mem_upEvsOf env chunks batchSize batchStart _ h1
      exact Event.noConfusion hq
    · rw [List.mem_singleton] at h1
      exact Event.noConfusion h1

theorem upload_file_trace (env : Env) (chunkSize batchSize : Nat)
    (data : List Nat) :
    (upload_file env chunkSize batchSize data).1 =
      (runBatches env ((split_file chunkSize data).1.map Prod.snd) batchSize
        (batchStarts ((split_file chunkSize data).1.map Prod.snd).length
          batchSize)
        (mergeUrls (fun _ => none) env.initialUrls)).1 := by
  simp only [upload_file]
  split
  · rfl
  · rfl
  · split <;> rfl

theorem upload_file_result_of_okSome (env : Env) (chunkSize batchSize : Nat)
    (data : List Nat) (u : String)
    (h : (runBatches env ((split_file chunkSize data).1.map Prod.snd) batchSize
      (batchStarts ((split_file chunkSize data).1.map Prod.snd).length
        batchSize)
      (mergeUrls (fun _ => none) env.initialUrls)).2 = .ok (some u)) :
    (upload_file env chunkSize batchSize data).2 = .ok u := by
  simp only [upload_file, h]

theorem upload_file_result_of_error (env : Env) (chunkSize batchSize : Nat)
    (data : List Nat) (e : UpErr)
    (h : (runBatches env ((split_file chunkSize data).1.map Prod.snd) batchSize
      (batchStarts ((split_file chunkSize data).1.map Prod.snd).length
        batchSize)
      (mergeUrls (fun _ => none) env.initialUrls)).2 = .error e) :
    (upload_file env chunkSize batchSize data).2 = .error e := by
  simp only [upload_file, h]

/-- Counterexample to C3: a report response whose `url` field is present
but an empty string is not treated as completion — `result.get('url')` is
falsy — so the batch after it is still uploaded and reported: with every
report response carrying `url = ""`, both batches of a two-chunk upload
are reported. -/
theorem empty_url_not_early :
    envEmptyUrl.reportResp 0 = some "" ∧
    reportStarts (upload_file envEmptyUrl 1 1 [0, 1]).1 = [0, 1] := by
  constructor
  · rfl
  · rfl

/-- Claim C3 (amended). For every batch whose completion-report response
contains a truthy (non-empty) `url` value, `upload_file` returns that URL
immediately: the trace ends at that batch's report, every reported batch
precedes it, and no chunk of any later batch is ever uploaded.  The
interpreter is sequential, so trace order is temporal order. -/
theorem early_url_stops_batches (env : Env) (chunkSize batchSize : Nat)
    (data : List Nat) (hb : 0 < batchSize)
    (horder : ∀ b l, (env.order b l).Perm l)
    (k : Nat) (ps : List ChunkProof) (u : String)
    (hurl : env.reportResp k = some u) (hne : u ≠ "")
    (hmem : Event.report k ps ∈ (upload_file env chunkSize batchSize data).1) :
    (upload_file env chunkSize batchSize data).2 = .ok u ∧
    (∃ pre, (upload_file env chunkSize batchSize data).1 =
      pre ++ [Event.report k ps]) ∧
    (∀ k' ps', Event.report k' ps' ∈
      (upload_file env chunkSize batchSize data).1 → k' ≤ k) ∧
    (∀ i, Event.upload i ∈ (upload_file env chunkSize batchSize data).1 →
      i ≤ k + batchSize) := by
  rw [upload_file_trace] at hmem
  obtain ⟨hres, hpre, hreps, hups⟩ :=
    runBatches_early_return env ((split_file chunkSize data).1.map Prod.snd)
      batchSize horder k u hurl hne
      (batchStarts ((split_file chunkSize data).1.map Prod.snd).length
        batchSize)
      (mergeUrls (fun _ => none) env.initialUrls) ps
      (batchStarts_sorted _ _ hb) hmem
  refine ⟨upload_file_result_of_okSome env chunkSize batchSize data u hres,
    ?_, ?_, ?_⟩
  · rw [upload_file_trace]
    exact hpre
  · intro k' ps' h'
    rw [upload_file_trace] at h'
    exact hreps k' ps' h'
  · intro i hi
    rw [upload_file_trace] at hi
    obtain ⟨b, hbk, hib⟩ := hups i hi
    rw [mem_batchIdxsOf] at hib
    omega

/-- Witness for C3 (amended): with `envEarly`, batch 0's report returns
`"final"` and `upload_file` returns it. -/
theorem early_url_stops_batches_witness :
    (upload_file envEarly 1 2 [0, 1, 2]).2 = .ok "final" :=
  (early_url_stops_batches envEarly 1 2 [0, 1, 2] (by decide)
    (fun _ l => List.reverse_perm l)
    0 [⟨2, "e", "etag", 1⟩, ⟨1, "e", "etag", 1⟩] "final" rfl (by decide)
    (by decide)).1

/-- Claim C5. If the upload of one chunk of a batch fails, the whole
operation fails: that batch's report is never sent, no later batch is
reported and no chunk of a later batch is uploaded, the failed chunk is
uploaded at most once (no retry), and if the failing batch was reached the
run's outcome is a chunk-upload error. -/
theorem chunk_failure_fail_fast (env : Env) (chunkSize batchSize : Nat)
    (data : List Nat) (horder : ∀ b l, (env.order b l).Perm l)
    (s j : Nat) (msg : String)
    (hs : s ∈ batchStarts ((split_file chunkSize data).1.map Prod.snd).length
      batchSize)
    (hjs : j ∈ batchIdxsOf ((split_file chunkSize data).1.map Prod.snd).length
      batchSize s)
    (hfail : env.uploadEtag j = .error msg) :
    (∀ ps, Event.report s ps ∉ (upload_file env chunkSize batchSize data).1) ∧
    (∀ s' ps, s < s' → Event.report s' ps ∉
      (upload_file env chunkSize batchSize data).1) ∧
    (∀ i, Event.upload i ∈ (upload_file env chunkSize batchSize data).1 →
      i ≤ s + batchSize) ∧
    ((upload_file env chunkSize batchSize data).1.count (Event.upload j) ≤ 1) ∧
    (Event.upload j ∈ (upload_file env chunkSize batchSize data).1 →
      ∃ i' msg', (upload_file env chunkSize batchSize data).2 =
        .error (.chunkFailed i' msg')) := by
  obtain ⟨c1, c2, c3, c4, c5⟩ :=
    runBatches_chunk_failure env ((split_file chunkSize data).1.map Prod.snd)
      batchSize horder s j msg hjs hfail
      (batchStarts ((split_file chunkSize data).1.map Prod.snd).length
        batchSize)
      (mergeUrls (fun _ => none) env.initialUrls) hs (batchStarts_spacing _ _)
  refine ⟨?_, ?_, ?_, ?_, ?_⟩
  · intro ps hmem
    rw [upload_file_trace] at hmem
    exact c1 ps hmem
  · intro s' ps hss' hmem
    rw [upload_file_trace] at hmem
    exact c2 s' ps hss' hmem
  · intro i hi
    rw [upload_file_trace] at hi
    have := c3 i hi
    omega
  · rw [upload_file_trace]
    exact c4
  · intro hj'
    rw [upload_file_trace] at hj'
    obtain ⟨i', msg', hres⟩ := c5 hj'
    exact ⟨i', msg',
      upload_file_result_of_error env chunkSize batchSize data _ hres⟩

/-- Witness for C5: with `envFail` (chunk 3's PUT fails), chunk 3 is
uploaded exactly once and the run fails with a chunk-upload error. -/
theorem chunk_failure_fail_fast_witness :
    (upload_file envFail 1 2 [0, 1, 2]).1.count (Event.upload 3) ≤ 1 ∧
    (upload_file envFail 1 2 [0, 1, 2]).2 =
      .error (.chunkFailed 3 "boom") := by
  have h := chunk_failure_fail_fast envFail 1 2 [0, 1, 2]
    (fun _ l => List.Perm.refl l) 2 3 "boom" (by decide) (by decide) rfl
  exact ⟨h.2.2.2.1, rfl⟩

/-- Claim C6. Batches are processed and reported in strictly ascending
order: the reported batch starts form a prefix of the batch-start list (so
batch `k`'s report precedes batch `k+1`'s in the sequential trace), and a
batch's report event is preceded by an upload event for every chunk of the
batch, its proof list covering exactly the batch's indices; the completion
order within a batch (`env.order`) is arbitrary. -/
theorem batches_reported_in_order (env : Env) (chunkSize batchSize : Nat)
    (data : List Nat) (hb : 0 < batchSize)
    (horder : ∀ b l, (env.order b l).Perm l) :
    (∃ m, reportStarts (upload_file env chunkSize batchSize data).1 =
      (batchStarts ((split_file chunkSize data).1.map Prod.snd).length
        batchSize).take m) ∧
    (reportStarts (upload_file env chunkSize batchSize data).1).Pairwise
      (· < ·) ∧
    (∀ b ps, Event.report b ps ∈
        (upload_file env chunkSize batchSize data).1 →
      ∃ pre post, (upload_file env chunkSize batchSize data).1 =
        pre ++ Event.report b ps :: post ∧
        (∀ i ∈ batchIdxsOf ((split_file chunkSize data).1.map Prod.snd).length
          batchSize b, Event.upload i ∈ pre) ∧
        (ps.map (fun p => p.chunk_index)).Perm
          (batchIdxsOf ((split_file chunkSize data).1.map Prod.snd).length
            batchSize b)) := by
  obtain ⟨m, hm⟩ := runBatches_reportStarts env
    ((split_file chunkSize data).1.map Prod.snd) batchSize
    (batchStarts ((split_file chunkSize data).1.map Prod.snd).length
      batchSize)
    (mergeUrls (fun _ => none) env.initialUrls)
  refine ⟨⟨m, by rw [upload_file_trace]; exact hm⟩, ?_, ?_⟩
  · rw [upload_file_trace, hm]
    exact List.Pairwise.sublist (List.take_sublist _ _)
      (batchStarts_sorted _ _ hb)
  · intro b ps hmem
    rw [upload_file_trace] at hmem
    obtain ⟨-, -, pre, post, hsplit, hups⟩ :=
      runBatches_report_shape env ((split_file chunkSize data).1.map Prod.snd)
        batchSize horder _ _ b ps hmem
    obtain ⟨-, hperm, -, -⟩ :=
      runBatches_report_proofs env ((split_file chunkSize data).1.map Prod.snd)
        batchSize horder _ _ b ps hmem
    exact ⟨pre, post, by rw [upload_file_trace]; exact hsplit, hups, hperm⟩

/-- Witness for C6: the three-chunk run against `envOK` (batch size 2). -/
theorem batches_reported_in_order_witness :
    ∃ m, reportStarts (upload_file envOK 1 2 [0, 1, 2]).1 =
      (batchStarts ((split_file 1 [0, 1, 2]).1.map Prod.snd).length 2).take m :=
  (batches_reported_in_order envOK 1 2 [0, 1, 2] (by decide)
    (fun _ l => List.reverse_perm l)).1

/-- Claim C9. Each batch report's proof list lists exactly the chunk indices
of that batch — one entry per index, none missing, none extraneous — and
the entries appear in upload-completion order (`env.order`'s order), which
need not be ascending index order. -/
theorem report_proofs_complete (env : Env) (chunkSize batchSize : Nat)
    (data : List Nat) (horder : ∀ b l, (env.order b l).Perm l)
    (b : Nat) (ps : List ChunkProof)
    (hmem : Event.report b ps ∈ (upload_file env chunkSize batchSize data).1) :
    ps.map (fun p => p.chunk_index) =
      (orderedOf env ((split_file chunkSize data).1.map Prod.snd) batchSize
        b).map Prod.fst ∧
    (ps.map (fun p => p.chunk_index)).Perm
      (batchIdxsOf ((split_file chunkSize data).1.map Prod.snd).length
        batchSize b) ∧
    (∀ i ∈ batchIdxsOf ((split_file chunkSize data).1.map Prod.snd).length
      batchSize b, (ps.map (fun p => p.chunk_index)).count i = 1) ∧
    (∀ i, i ∉ batchIdxsOf ((split_file chunkSize data).1.map Prod.snd).length
      batchSize b → (ps.map (fun p => p.chunk_index)).count i = 0) := by
  rw [upload_file_trace] at hmem
  exact runBatches_report_proofs env
    ((split_file chunkSize data).1.map Prod.snd) batchSize horder _ _ b ps hmem

/-- Witness for C9: with reversed completion order (`envOK`), batch 0's
proof list is `[2, 1]` — complete but not in ascending index order. -/
theorem report_proofs_complete_witness :
    (([⟨2, "e", "etag", 1⟩, ⟨1, "e", "etag", 1⟩] : List ChunkProof).map
      (fun p => p.chunk_index)).Perm (batchIdxsOf 3 2 0) ∧
    ([⟨2, "e", "etag", 1⟩, ⟨1, "e", "etag", 1⟩] : List ChunkProof).map
      (fun p => p.chunk_index) = [2, 1] := by
  have h := report_proofs_complete envOK 1 2 [0, 1, 2]
    (fun _ l => List.reverse_perm l) 0
    [⟨2, "e", "etag", 1⟩, ⟨1, "e", "etag", 1⟩] (by decide)
  exact ⟨h.2.1, by decide⟩

/-- Counterexample to C7: when a batch has several missing indices on the
same page — here the cache holds indices 1-10 and the batch needs 11 and
12 — the refill loop issues one `get_additional_urls` call per missing
index, so page 2 is requested twice, not exactly once. -/
theorem duplicate_page_refills :
    (upload_file envPages 1 10 (List.range 12)).1.count (Event.refill 2) = 2 ∧
    ¬ (upload_file envPages 1 10 (List.range 12)).1.count
      (Event.refill 2) = 1 := by
  decide

/-- Claim C7 (amended). For each batch, one refill request is issued per
index missing from the cache — for page `(index - 1) / 10 + 1`, matching
`get_additional_urls`' page size of 10 — and all of them are issued before
any upload of the batch is launched; every `{chunk_index, url}` pair
returned by any of those refills is merged into the cache (and cached
entries survive).  Duplicate page fetches occur when several indices of
the same page are missing. -/
theorem refills_per_missing_index (env : Env) (chunks : List (List Nat))
    (batchSize batchStart : Nat) (urls : Nat → Option String) :
    (∃ rest, (processBatch env chunks batchSize batchStart urls).1 =
      ((batchIdxsOf chunks.length batchSize batchStart).filter
        (fun i => (urls i).isNone)).map
          (fun i => Event.refill ((i - 1) / 10 + 1)) ++ rest ∧
      ∀ p, Event.refill p ∉ rest) ∧
    (∀ i, (urls i).isSome →
      (((refillPhase env urls (missingOf urls
        (batchIdxsOf chunks.length batchSize batchStart))).2) i).isSome) ∧
    (∀ l i v, l ∈ missingOf urls
        (batchIdxsOf chunks.length batchSize batchStart) →
      (i, v) ∈ env.refillUrls ((l - 1) / 10 + 1) →
      (((refillPhase env urls (missingOf urls
        (batchIdxsOf chunks.length batchSize batchStart))).2) i).isSome) := by
  refine ⟨processBatch_refill_shape env chunks batchSize batchStart urls,
    ?_, ?_⟩
  · intro i h
    exact refillFold_isSome_of env _ urls i h
  · intro l i v hl hiv
    exact refillFold_covers env _ urls l hl i v hiv

/-- Claim C10. For a zero-byte input file, `split_file` still creates the
scratch chunk directory but returns an empty chunk list; `upload_file`
then performs no chunk upload and sends no completion report (the trace is
empty), and the outcome is decided solely by the single final status poll:
`completed` yields the asset URL, anything else raises. -/
theorem empty_file_no_uploads (env : Env) (chunkSize batchSize : Nat)
    (hb : 0 < batchSize) :
    (split_file chunkSize []).1 = [] ∧
    (splitFileState chunkSize []).dirExists = true ∧
    (upload_file env chunkSize batchSize []).1 = [] ∧
    (∀ i, Event.upload i ∉ (upload_file env chunkSize batchSize []).1) ∧
    (∀ b ps, Event.report b ps ∉ (upload_file env chunkSize batchSize []).1) ∧
    (upload_file env chunkSize batchSize []).2 =
      (if env.finalStatus == "completed" then .ok env.assetUrl
       else .error (.notCompleted env.finalStatus)) := by
  have hsp : (split_file chunkSize []).1 = [] := by
    simp [split_file, splitFileAux_nil]
  have hb1 : batchStarts ((split_file chunkSize []).1.map Prod.snd).length
      batchSize = [] := by
    rw [hsp]
    simp only [List.map_nil, List.length_nil]
    unfold batchStarts
    rw [show (0 + batchSize - 1) / batchSize = 0 from
      Nat.div_eq_of_lt (by omega)]
    rfl
  have hrun : runBatches env ((split_file chunkSize []).1.map Prod.snd)
      batchSize
      (batchStarts ((split_file chunkSize []).1.map Prod.snd).length
        batchSize)
      (mergeUrls (fun _ => none) env.initialUrls) = ([], .ok none) := by
    rw [hb1]
    exact runBatches_nil _ _ _ _
  have htr : (upload_file env chunkSize batchSize []).1 = [] := by
    rw [upload_file_trace, hrun]
  have hrun2 : (runBatches env ((split_file chunkSize []).1.map Prod.snd)
      batchSize
      (batchStarts ((split_file chunkSize []).1.map Prod.snd).length
        batchSize)
      (mergeUrls (fun _ => none) env.initialUrls)).2 = .ok none := by
    rw [hrun]
  refine ⟨hsp, rfl, htr, ?_, ?_, ?_⟩
  · intro i hi
    rw [htr] at hi
    exact List.not_mem_nil _ hi
  · intro b ps hmem
    rw [htr] at hmem
    exact List.not_mem_nil _ hmem
  · simp only [upload_file, hrun2]
    split <;> rfl

/-- Witness for C10: the empty file against `envOK` (final status
`completed`). -/
theorem empty_file_no_uploads_witness :
    (upload_file envOK 2 3 []).1 = [] ∧ (upload_file envOK 2 3 []).2 = .ok "a" := by
  have h := empty_file_no_uploads envOK 2 3 (by decide)
  refine ⟨h.2.2.1, ?_⟩
  rw [h.2.2.2.2.2]
  rfl

/-- Counterexample to C8: on an unhandled error the diagnostic goes to
standard output — nothing at all is written to standard error (the code
uses plain `print`, line 346). -/
theorem main_error_goes_to_stdout :
    (mainDriver (.failed "boom")).1 = 1 ∧
    (mainDriver (.failed "boom")).2.filter
      (fun p => p.1 == OutChannel.stderr) = [] ∧
    (OutChannel.stdout, "Error: boom") ∈ (mainDriver (.failed "boom")).2 := by
  decide

/-- Claim C8 (amended). The CLI driver exits with code 0 on success after
printing the resolved asset URL, and exits with code 1 on any unhandled
error or user interrupt — but the error message is written to standard
output, not standard error. -/
theorem main_exit_codes (url msg : String) :
    (mainDriver (.success url)).1 = 0 ∧
    (OutChannel.stdout, "Asset URL: " ++ url) ∈ (mainDriver (.success url)).2 ∧
    (mainDriver (.failed msg)).1 = 1 ∧
    (OutChannel.stdout, "Error: " ++ msg) ∈ (mainDriver (.failed msg)).2 ∧
    (mainDriver .interrupted).1 = 1 ∧
    (∀ p ∈ (mainDriver (.failed msg)).2, p.1 = OutChannel.stdout) ∧
    (∀ p ∈ (mainDriver (.success url)).2, p.1 = OutChannel.stdout) := by
  refine ⟨rfl, ?_, rfl, ?_, rfl, ?_, ?_⟩
  · simp [mainDriver]
  · simp [mainDriver]
  · intro p hp
    simp only [mainDriver, List.mem_singleton] at hp
    simp [hp]
  · intro p hp
    simp only [mainDriver] at hp
    rcases List.mem_cons.mp hp with h | h
    · simp [h]
    · rw [List.mem_singleton] at h
      simp [h]

end Multipart
